import Mathlib

/-!
Verification of behaviors of tremc (a curses client for the Transmission
bittorrent daemon, src/tremc.py).  Each section shallowly embeds one piece of
the program as executable Lean definitions and proves or refutes the stated
property about it.  Machine integers are embedded as Int/Nat, Python floats
on the exact values arising here as Rat, fallible code as Except.
-/

namespace Tremc

/-! ### Error codes (tremc.py, class errors) -/

def CONNECTION_ERROR : Nat := 1

def JSON_ERROR : Nat := 2

/-! ### percent (tremc.py, def percent)

Python source:
  try:
      percent = 100 / (float(full) / float(part))
  except ZeroDivisionError:
      percent = 0.0
  return percent

Division by zero raises ZeroDivisionError in Python, for floats as well.  We
embed a raising division and the try/except around the two divisions.
-/

def pydiv (a b : ℚ) : Except String ℚ :=
  if b = 0 then .error "ZeroDivisionError" else .ok (a / b)

def percentTry (full part : ℚ) : Except String ℚ := do
  let q ← pydiv full part
  pydiv 100 q

def percent (full part : ℚ) : Except String ℚ :=
  match percentTry full part with
  | .ok p => .ok p
  | .error "ZeroDivisionError" => .ok 0
  | .error e => .error e

/-- A torrent record as it arrives in a torrent-get response, restricted to
the fields entering the percentDone computation in parse_response. -/
structure TorrentRaw where
  sizeWhenDone : ℚ
  haveValid : ℚ
  haveUnchecked : ℚ
deriving DecidableEq, Repr

/-- parse_response computes, for every torrent of the response,
t[percentDone] = percent(sizeWhenDone, haveValid + haveUnchecked).
An uncaught exception for any torrent would abort the whole response. -/
def parse_response_percents (ts : List TorrentRaw) : Except String (List ℚ) :=
  ts.mapM fun t => percent t.sizeWhenDone (t.haveValid + t.haveUnchecked)

/-! ### TransmissionRequest.send_request (tremc.py lines 544-570)

The request/challenge exchange is embedded as a function of the scripted
sequence of server replies.  Each attempt attaches the current session id (if
any) as the X-Transmission-Session-Id header.  An HTTPError whose body
carries a session token leads to capturing the token and recursing; an
HTTPError without an extractable token makes m.group(1) raise AttributeError,
caught by exit_prog(CONNECTION_ERROR); a URLError exits likewise.
-/

inductive ServerReply where
  | success
  | challengeTok (tok : String)
  | challengeNoTok
  | urlError
deriving DecidableEq, Repr

inductive SendOutcome where
  | completed
  | exited (code : Nat)
deriving DecidableEq, Repr

/-- Embedding of send_request.  Returns the list of session-id headers
attached to the successive HTTP attempts together with the outcome, or none
when the reply script is exhausted before the exchange settles. -/
def send_request (sid : Option String) :
    List ServerReply → Option (List (Option String) × SendOutcome)
  | [] => none
  | .success :: _ => some ([sid], .completed)
  | .challengeTok tok :: rest =>
      match send_request (some tok) rest with
      | none => none
      | some (hdrs, out) => some (sid :: hdrs, out)
  | .challengeNoTok :: _ => some ([sid], .exited CONNECTION_ERROR)
  | .urlError :: _ => some ([sid], .exited CONNECTION_ERROR)

/-! ### TransmissionRequest.get_response (tremc.py lines 572-595) and
Transmission.update (lines 734-752)

get_response: with no open request it returns the dict
  result = no open request.
A ConnectionResetError while reading returns the dict
  result = connection reset by peer   (open_request is NOT cleared);
any other read exception returns result = Exception (open_request kept).
A completed read whose bytes fail to json-decode calls
exit_prog(JSON_ERROR); a decodable body clears open_request and is returned.
-/

/-- What reading the open request yields:  a decodable JSON document, a
body that fails to decode, or an exception mid-read. -/
inductive ReadOutcome where
  | okJson (result : String) (payload : Int)
  | okGarbage
  | connReset
  | otherExc
deriving DecidableEq, Repr

/-- The dictionaries (abstracted to their result field and payload) that
get_response can return. -/
structure RespDict where
  result : String
  payload : Int
deriving DecidableEq, Repr

/-- Embedding of get_response: takes the open_request state, returns either
an exit code (process terminated) or the new open_request state and the
response dict. -/
def get_response (open_request : Option ReadOutcome) :
    Except Nat (Option ReadOutcome × RespDict) :=
  match open_request with
  | none => .ok (none, ⟨"no open request", 0⟩)
  | some .connReset => .ok (some .connReset, ⟨"connection reset by peer", 0⟩)
  | some .otherExc => .ok (some .otherExc, ⟨"Exception", 0⟩)
  | some .okGarbage => .error JSON_ERROR
  | some (.okJson r p) => .ok (none, ⟨r, p⟩)

/-- One update() step for a single due request: poll get_response; on
result = no open request re-send the request; on result = success apply the
response to the cache; on any other result do nothing.  Returns the new
cache, the new open_request state, and whether the request was re-sent. -/
def update_step (cache : Int) (open_request : Option ReadOutcome) :
    Except Nat (Int × Option ReadOutcome × Bool) := do
  let (req, resp) ← get_response open_request
  if resp.result = "no open request" then
    .ok (cache, req, true)
  else if resp.result = "success" then
    .ok (resp.payload, req, false)
  else
    .ok (cache, req, false)

end Tremc

namespace Tremc

/-! ### Normalizer (tremc.py lines 507-523) and
Transmission.upgrade_peerlist (lines 814-853)

The peer-rate estimator state for one peer key (address + torrent hash).
Times and progress fractions are embedded as rationals.  The Normalizer
keeps, per key, a sliding window of at most max_len samples and returns
their average; we model the single window belonging to the one peer key
involved (absent = the key was never added).
-/

/-- Normalizer.add for one key: create the window on first use, otherwise
pop the oldest sample once the window is full, then append. -/
def normalizer_add (window : Option (List ℚ)) (value : ℚ) (max_len : ℕ) :
    List ℚ :=
  match window with
  | none => [value]
  | some l => (if max_len ≤ l.length then l.tail else l) ++ [value]

/-- Normalizer.get for one key: the average of the stored samples (0.0 for
an absent key). -/
def normalizer_get (window : Option (List ℚ)) : ℚ :=
  match window with
  | none => 0
  | some l => l.sum / l.length

/-- The cached per-peer estimator entry (peer_progress_cache[peerid]). -/
structure PeerEntry where
  last_progress : ℚ
  last_update : ℚ
  download_speed : ℚ
  time_left : ℚ
deriving DecidableEq, Repr

/-- One upgrade_peerlist step for a single peer: entry is the cached
estimator state (none when the peer is seen for the first time, in which
case the code seeds it with the current progress and time), window is the
Normalizer window for this peer key, progress is the fractional progress
reported for the peer, now is time.time(), totalSize the torrent size. -/
def upgrade_peer (entry : Option PeerEntry) (window : Option (List ℚ))
    (progress now totalSize : ℚ) : PeerEntry × Option (List ℚ) :=
  let this_peer : PeerEntry :=
    match entry with
    | none => ⟨progress, now, 0, 0⟩
    | some e => e
  if progress < 1 then
    let time_diff := now - this_peer.last_update
    let progress_diff := progress - this_peer.last_progress
    if this_peer.last_progress ≠ 0 ∧ progress_diff > 0 ∧ time_diff > 5 then
      let download_left := totalSize - totalSize * progress
      let downloaded := totalSize * progress_diff
      let window := normalizer_add window (downloaded / time_diff) 10
      let speed := normalizer_get (some window)
      (⟨progress, now, speed, download_left / speed⟩, some window)
    else if time_diff > 60 then
      (⟨progress, now, 0, 0⟩, window)
    else
      ({ this_peer with last_progress := progress }, window)
  else
    (this_peer, window)

end Tremc

namespace Tremc

/-! ### Transmission.increase_file_priority / decrease_file_priority
(tremc.py lines 1140-1171), set_file_priority (1173-1182) and
get_file_priority (1184-1194)

The cached per-file state of the open torrent consists of the wanted flags
and the numeric priorities (-1 low, 0 normal, 1 high).  Out-of-range indices
are embedded with getD defaults; the callers only pass in-range indices.
-/

/-- The priority argument set_file_priority is called with. -/
inductive PriorityCmd where
  | low
  | normal
  | high
  | off
deriving DecidableEq, Repr

structure FileState where
  wanted : List Bool
  priorities : List Int
deriving DecidableEq, Repr

def FileState.wantedAt (st : FileState) (i : ℕ) : Bool := st.wanted.getD i false

def FileState.prioAt (st : FileState) (i : ℕ) : Int := st.priorities.getD i 0

/-- get_file_priority: the priority encoding shown for one file. -/
def get_file_priority (st : FileState) (file_num : ℕ) : String :=
  let priority := st.prioAt file_num
  if ¬ st.wantedAt file_num then "off"
  else if priority ≤ -1 then "low"
  else if priority = 0 then "normal"
  else if priority ≥ 1 then "high"
  else "?"

/-- The representative scan of increase_file_priority: any unwanted file
breaks the loop and becomes the representative; otherwise the first file of
strictly smallest numeric priority wins. -/
def inc_ref (st : FileState) : List ℕ → ℕ → ℕ
  | [], ref => ref
  | num :: rest, ref =>
      if ¬ st.wantedAt num then num
      else if st.prioAt num < st.prioAt ref then inc_ref st rest num
      else inc_ref st rest ref

/-- The representative scan of decrease_file_priority: the first file of
strictly greatest numeric priority (the wanted flag is ignored). -/
def dec_ref (st : FileState) : List ℕ → ℕ → ℕ
  | [], ref => ref
  | num :: rest, ref =>
      if st.prioAt num > st.prioAt ref then dec_ref st rest num
      else dec_ref st rest ref

/-- increase_file_priority: the set_file_priority command it issues, none
when no command is sent (empty selection raises IndexError in the source and
is excluded by the claim; a representative already at high sends nothing). -/
def increase_file_priority (st : FileState) (file_nums : List ℕ) :
    Option PriorityCmd :=
  match file_nums with
  | [] => none
  | first :: _ =>
      let ref_num := inc_ref st file_nums first
      let current_priority := st.prioAt ref_num
      if ¬ st.wantedAt ref_num then some .low
      else if current_priority = -1 then some .normal
      else if current_priority = 0 then some .high
      else none

/-- decrease_file_priority: the set_file_priority command it issues. -/
def decrease_file_priority (st : FileState) (file_nums : List ℕ) :
    Option PriorityCmd :=
  match file_nums with
  | [] => none
  | first :: _ =>
      let ref_num := dec_ref st file_nums first
      let current_priority := st.prioAt ref_num
      if current_priority ≥ 1 then some .normal
      else if current_priority = 0 then some .low
      else if current_priority = -1 then some .off
      else none

/-- Overwrite the entries of a list at the positions (counted from k) that
belong to ns with the value v. -/
def overwriteAt (ns : List ℕ) (v : α) : List α → ℕ → List α
  | [], _ => []
  | a :: as, k => (if k ∈ ns then v else a) :: overwriteAt ns v as (k + 1)

/-- Modelled from the spec: the effect on the cached wanted/priorities state
of the torrent-set RPC arguments that set_file_priority builds (priority off
puts the selection in files-unwanted; every other priority puts it in
files-wanted together with priority-low/normal/high).  The server applying
those arguments and the refreshed detail response are outside src; the spec
describes the encoding as the three tiers -1/0/+1 plus a wanted flag. -/
def apply_priority_cmd (st : FileState) (file_nums : List ℕ) :
    PriorityCmd → FileState
  | .off => { st with wanted := overwriteAt file_nums false st.wanted 0 }
  | .low =>
      ⟨overwriteAt file_nums true st.wanted 0,
       overwriteAt file_nums (-1) st.priorities 0⟩
  | .normal =>
      ⟨overwriteAt file_nums true st.wanted 0,
       overwriteAt file_nums 0 st.priorities 0⟩
  | .high =>
      ⟨overwriteAt file_nums true st.wanted 0,
       overwriteAt file_nums 1 st.priorities 0⟩

/-- The complete effect of one increase/decrease action on the cached file
state (identity when no command is issued). -/
def run_increase (st : FileState) (file_nums : List ℕ) : FileState :=
  match increase_file_priority st file_nums with
  | none => st
  | some cmd => apply_priority_cmd st file_nums cmd

def run_decrease (st : FileState) (file_nums : List ℕ) : FileState :=
  match decrease_file_priority st file_nums with
  | none => st
  | some cmd => apply_priority_cmd st file_nums cmd

end Tremc


namespace Tremc

/-! ### Transmission.get_torrent_list and its sort_value
(tremc.py lines 870-886), and the sort-order menu action
(lines 1592-1603)

sort_value renders numbers with the Python format %027.6f (27 characters,
zero filled, 6 decimals) and lowercases strings, so that every attribute is
compared as a string.  List sorting is one stable list.sort pass per
configured key, applied in configuration order (oldest first).
-/

/-- Big-endian rendering of x as exactly n decimal digit characters (the
zero-filled regime of the format). -/
def padDigits : ℕ → ℕ → List Char
  | 0, _ => []
  | n + 1, x => padDigits n (x / 10) ++ [Char.ofNat (48 + x % 10)]

/-- The dot and six zero decimals every %.6f rendering of an integral value
ends in.  Python strings are embedded as their character sequences
(List Char); the lemma le_iff_mkString_le below identifies the lexicographic
order used here with the order of the corresponding Lean strings. -/
def decimals : List Char := ['.', '0', '0', '0', '0', '0', '0']

/-- Embedding of the Python format %027.6f on integral values inside the
zero-filled width (at most 20 integral digits, which the source comments
assume is quite enough for anything): sign, zero-filled integral digits and
six zero decimals, 27 characters in total. -/
def fmt027 (z : ℤ) : List Char :=
  if z < 0 then '-' :: (padDigits 19 z.natAbs ++ decimals)
  else padDigits 20 z.toNat ++ decimals

/-- A scalar attribute value entering sort_value: an int/float (embedded
integral) or a str.  (The final str(value) fallback branch of sort_value is
for non-scalar attributes, which the sortable attributes here never are.) -/
inductive Value where
  | num (z : ℤ)
  | str (s : List Char)
deriving DecidableEq, Repr

/-- sort_value: always return a string, so everything is comparable. -/
def sort_value : Value → List Char
  | .num z => fmt027 z
  | .str s => s.map Char.toLower

/-- A torrent restricted to the attributes these claims sort by. -/
structure Torrent where
  id : ℤ
  name : List Char
  status : ℤ
deriving DecidableEq, Repr

inductive SortName where
  | name
  | status
deriving DecidableEq, Repr

/-- One element of gconfig.sort_orders. -/
structure SortOrder where
  name : SortName
  reverse : Bool
deriving DecidableEq, Repr

def torrentAttr (t : Torrent) : SortName → Value
  | .name => .str t.name
  | .status => .num t.status

/-- The key one sort pass extracts: sort_value of the configured attribute. -/
def sortKey (so : SortOrder) (t : Torrent) : List Char :=
  sort_value (torrentAttr t so.name)

/-- The element order of one list.sort(key=..., reverse=...) pass: a may
stay before b.  Python sort is stable, and with reverse the comparisons are
reversed while equal elements still keep their original order. -/
def pyLe (so : SortOrder) (a b : Torrent) : Prop :=
  if so.reverse then sortKey so b ≤ sortKey so a
  else sortKey so a ≤ sortKey so b

instance (so : SortOrder) : DecidableRel (pyLe so) := fun a b => by
  unfold pyLe
  infer_instance

instance (so : SortOrder) : IsTotal Torrent (pyLe so) :=
  ⟨fun a b => by
    by_cases h : so.reverse <;>
      simp only [pyLe, h, if_true, if_false, Bool.false_eq_true] <;>
      exact le_total _ _⟩

instance (so : SortOrder) : IsTrans Torrent (pyLe so) :=
  ⟨fun a b c => by
    by_cases h : so.reverse <;>
      simp only [pyLe, h, if_true, if_false, Bool.false_eq_true]
    · exact fun h1 h2 => le_trans h2 h1
    · exact fun h1 h2 => le_trans h1 h2⟩

/-- get_torrent_list: one stable sort pass per configured sort order, in
list order (so the most recently configured key is sorted last).  Python
list.sort is a stable sort; it is embedded as the stable insertion sort.
The try/except IndexError around the loop only fires for a malformed
configuration and never for the well-formed orders modeled here. -/
def get_torrent_list (sort_orders : List SortOrder)
    (torrent_cache : List Torrent) : List Torrent :=
  sort_orders.foldl (fun tc so => List.insertionSort (pyLe so) tc)
    torrent_cache

/-- The while-loop of action_show_torrent_sort_order_menu: pop the oldest
order from the front while more than two are configured. -/
def popOldSortOrders : List SortOrder → List SortOrder
  | a :: b :: c :: rest =>
      popOldSortOrders (b :: c :: rest)
  | l => l

/-- action_show_torrent_sort_order_menu for a non-reverse choice: append the
chosen order and truncate the stack to depth 2. -/
def action_add_sort_order (orders : List SortOrder) (choice : SortName)
    (inverse : Bool) : List SortOrder :=
  popOldSortOrders (orders ++ [⟨choice, inverse⟩])

/-- The sort-order stack after configuring status and then adding name,
both non-reversed: the claimed configuration. -/
def statusThenName : List SortOrder :=
  [⟨.status, false⟩, ⟨.name, false⟩]

/-- The name key of the claimed configuration (lowercased name). -/
def nameKey (t : Torrent) : List Char := sort_value (.str t.name)

/-- The status key of the claimed configuration (formatted status). -/
def statusKey (t : Torrent) : List Char := sort_value (.num t.status)

/-- Name-primary lexicographic order on torrents: the order the code
actually produces for the claimed configuration. -/
def lexNS (a b : Torrent) : Prop :=
  nameKey a < nameKey b ∨ (nameKey a = nameKey b ∧ statusKey a ≤ statusKey b)

/-- Strict part of lexNS. -/
def lexNSlt (a b : Torrent) : Prop :=
  nameKey a < nameKey b ∨ (nameKey a = nameKey b ∧ statusKey a < statusKey b)

/-- Two torrents differ on the claimed configuration keys. -/
def keysNe (a b : Torrent) : Prop :=
  (nameKey a, statusKey a) ≠ (nameKey b, statusKey b)

end Tremc

namespace Tremc

/-! ### Interface movement primitives (tremc.py lines 3578-3616)

Shared by the torrent list and the detail sub-views.  focus and scrollpos
are Python ints (embedded ℤ); scrollpos / step_size is Python float
division, exact on the values occurring here, embedded as rational
division.
-/

/-- The loop `while scrollpos % step_size: scrollpos -= 1` closing move_up.
For termination the recursion is guarded by 0 < step_size; a zero step would
raise ZeroDivisionError in the source before ever reaching this loop. -/
def floor_to_step (step_size : ℤ) (scrollpos : ℤ) : ℤ :=
  if h : 0 < step_size ∧ scrollpos % step_size ≠ 0 then
    floor_to_step step_size (scrollpos - 1)
  else scrollpos
termination_by (scrollpos % step_size).toNat
decreasing_by
  obtain ⟨hst, hnz⟩ := h
  have h1 : 0 ≤ scrollpos % step_size :=
    Int.emod_nonneg _ (ne_of_gt hst)
  have h2 : scrollpos % step_size < step_size := Int.emod_lt_of_pos _ hst
  have hpos : 0 < scrollpos % step_size := lt_of_le_of_ne h1 (Ne.symm hnz)
  have hstep2 : 1 < step_size := by
    by_contra hle
    have hone : step_size = 1 := by omega
    rw [hone, Int.emod_one] at hnz
    exact hnz rfl
  have hm1 : (1 : ℤ) % step_size = 1 :=
    Int.emod_eq_of_lt (by norm_num) hstep2
  have hsub : (scrollpos - 1) % step_size = scrollpos % step_size - 1 := by
    rw [Int.sub_emod, hm1]
    exact Int.emod_eq_of_lt (by omega) (by omega)
  omega

/-- move_up (lines 3578-3588). -/
def move_up (focus scrollpos step_size : ℤ) : ℤ × ℤ :=
  if focus < 0 then (-1, scrollpos)
  else
    (focus - 1,
     floor_to_step step_size
       (if (scrollpos : ℚ) / (step_size : ℚ) - ((focus - 1 : ℤ) : ℚ) > 0 then
          max 0 (scrollpos - step_size)
        else scrollpos))

/-- move_down (lines 3590-3595). -/
def move_down (focus scrollpos step_size elements_per_page list_height : ℤ) :
    ℤ × ℤ :=
  if focus < list_height - 1 then
    (focus + 1,
     if ((focus + 1 : ℤ) : ℚ) + 1 - (scrollpos : ℚ) / (step_size : ℚ) >
         ((elements_per_page : ℤ) : ℚ) then
       scrollpos + step_size
     else scrollpos)
  else (focus, scrollpos)

/-- move_page_up (lines 3597-3600). -/
def move_page_up (focus scrollpos step_size elements_per_page : ℤ) : ℤ × ℤ :=
  (max 0 (focus - elements_per_page + 1),
   max 0 (scrollpos - (elements_per_page - 1) * step_size))

/-- move_page_down (lines 3602-3608). -/
def move_page_down
    (focus scrollpos step_size elements_per_page list_height : ℤ) : ℤ × ℤ :=
  if focus + (elements_per_page - 1) ≥ list_height then
    (list_height - 1,
     scrollpos + (elements_per_page - 1) * step_size -
       (focus + (elements_per_page - 1) - list_height + 1) * step_size)
  else
    (focus + (elements_per_page - 1),
     scrollpos + (elements_per_page - 1) * step_size)

/-- move_to_top (lines 3610-3611). -/
def move_to_top : ℤ × ℤ := (0, 0)

/-- move_to_end (lines 3613-3616). -/
def move_to_end (step_size elements_per_page list_height : ℤ) : ℤ × ℤ :=
  (list_height - 1, max 0 ((list_height - elements_per_page) * step_size))

/-- The claimed scroll/focus invariant: focus within the item range, scroll
a multiple of the step size, and the focused row inside the visible band. -/
def scroll_invariant (focus scrollpos step_size visible count : ℤ) : Prop :=
  0 ≤ focus ∧ focus ≤ count - 1 ∧ scrollpos % step_size = 0 ∧
  scrollpos ≤ focus * step_size ∧
  focus * step_size ≤ scrollpos + visible * step_size - 1

end Tremc

namespace Tremc

/-! ### Interface.follow_list_focus (tremc.py lines 2611-2637)

The torrent list enters only through the id of each entry, so it is
embedded as the list of ids.  scrollpos / tlist_item_height is Python float
division, embedded as rational division; both while loops move scrollpos by
whole steps.  The loops are guarded by 0 < step for termination (the step
size, a number of screen rows per torrent, is positive in the program).
-/

/-- The loop `while focus < scrollpos / step: scrollpos -= step`. -/
def follow_up_loop (step focus scroll : ℤ) : ℤ :=
  if h : 0 < step ∧ (focus : ℚ) < (scroll : ℚ) / (step : ℚ) then
    follow_up_loop step focus (scroll - step)
  else scroll
termination_by (scroll - focus * step).toNat
decreasing_by
  obtain ⟨hst, hc⟩ := h
  have hlt : focus * step < scroll := by
    have h2 : (focus : ℚ) * (step : ℚ) < (scroll : ℚ) :=
      (lt_div_iff (by exact_mod_cast hst)).mp hc
    exact_mod_cast h2
  omega

/-- The loop `while focus > scrollpos / step + per_page - 1:
scrollpos += step`. -/
def follow_down_loop (step epp focus scroll : ℤ) : ℤ :=
  if h : 0 < step ∧
      (focus : ℚ) > (scroll : ℚ) / (step : ℚ) + (epp : ℚ) - 1 then
    follow_down_loop step epp focus (scroll + step)
  else scroll
termination_by ((focus - epp + 1) * step - scroll).toNat
decreasing_by
  obtain ⟨hst, hc⟩ := h
  have hlt : scroll < (focus - epp + 1) * step := by
    have hst2 : (0 : ℚ) < (step : ℚ) := by exact_mod_cast hst
    have h2 : (scroll : ℚ) / (step : ℚ) < (focus : ℚ) - (epp : ℚ) + 1 := by
      linarith
    have h3 : (scroll : ℚ) < ((focus : ℚ) - (epp : ℚ) + 1) * (step : ℚ) :=
      (div_lt_iff hst2).mp h2
    have h4 : (scroll : ℚ) < ((focus - epp + 1 : ℤ) : ℚ) * ((step : ℤ) : ℚ) := by
      push_cast
      push_cast at h3
      linarith
    exact_mod_cast h4
  omega

/-- The focus relocation of follow_list_focus: clamp the old index, keep it
when it still carries the focused id, else the first index carrying it. -/
def follow_new_focus (torrents : List ℤ) (focused_id focus : ℤ) : ℤ :=
  if torrents.getD (min focus ((torrents.length : ℤ) - 1)).toNat 0 ≠
      focused_id then
    (torrents.findIdx (fun t => t == focused_id) : ℤ)
  else min focus ((torrents.length : ℤ) - 1)

/-- follow_list_focus: early return on no focus; clear the focus when the
list is empty or the focused id is gone; otherwise relocate the index,
adjust the scroll offset by whole steps until the focus is inside the
visible band, and clamp it to [0, (length - per_page) * step]. -/
def follow_list_focus (torrents : List ℤ)
    (focused_id focus scrollpos step epp : ℤ) : ℤ × ℤ :=
  if focus = -1 then (focus, scrollpos)
  else if torrents.length = 0 ∨ focused_id ∉ torrents then (-1, 0)
  else
    (follow_new_focus torrents focused_id focus,
     max 0 (min
       (follow_down_loop step epp (follow_new_focus torrents focused_id focus)
         (follow_up_loop step (follow_new_focus torrents focused_id focus)
           scrollpos))
       (((torrents.length : ℤ) - epp) * step)))

/-- Modelled from the spec: the minimum whole-step adjustment that brings
the focused row into the visible band (scroll decreases to the focused row
when the focus is above the band, increases to put it on the last visible
row when below, and stays put when already visible), against which the
while-loop implementation is compared. -/
def min_adjust_spec (focus scrollpos step epp : ℤ) : ℤ :=
  if focus * step < scrollpos then focus * step
  else if scrollpos + (epp - 1) * step < focus * step then
    (focus - epp + 1) * step
  else scrollpos

end Tremc

namespace Tremc

/-! ### Interface.create_filelist_transition (tremc.py lines 3257-3289) and
the row-building loop of create_filelist (lines 3211-3229)

Each file enters as its path already split on the slash (the loop does
f = file[name].split(sep) first; a split always yields at least one
segment).  Display rows are kept structurally as (depth, name) pairs: the
source formats each row into its screen string, which the header claims do
not depend on.
-/

/-- One display row of the file list: a synthesized directory-header row or
a file row (screen formatting and the other display fields elided). -/
inductive FileRow where
  | dir (depth : ℤ) (name : String)
  | file (depth : ℤ) (name : String)
deriving DecidableEq, Repr

/-- The while loop computing same: count leading segments equal between f
and current_folder, also bounded by the third counter (the source bounds
same < f_len). -/
def sameCnt : List String → List String → ℕ → ℕ
  | a :: as, b :: bs, n + 1 => if a = b then sameCnt as bs n + 1 else 0
  | _, _, _ => 0

/-- The closing while loop of create_filelist_transition: while the depth is
below the number of directory parts of f, append a header for f[depth] and
step the depth and the header position counter. -/
def transitionLoop (f : List String) (f_len : ℤ) (filelist : List FileRow)
    (current_depth pos : ℤ) : List FileRow × ℤ × ℤ :=
  if h : current_depth < f_len then
    transitionLoop f f_len
      (filelist ++ [.dir current_depth (f.getD current_depth.toNat "")])
      (current_depth + 1) (pos + 1)
  else (filelist, current_depth, pos)
termination_by (f_len - current_depth).toNat
decreasing_by omega

/-- create_filelist_transition: decrease the depth by the non-shared
trailing segments of the old folder; when stepping out without stepping
into a new directory return unchanged, else emit one header per new
segment. -/
def create_filelist_transition (f current_folder : List String)
    (filelist : List FileRow) (current_depth pos : ℤ) :
    List FileRow × ℤ × ℤ :=
  if ((f.length : ℤ) - 1) < (current_folder.length : ℤ) ∧
      (f.length : ℤ) - 1 = (sameCnt f current_folder (f.length - 1) : ℤ) then
    (filelist,
     current_depth - ((current_folder.length : ℤ) -
       (sameCnt f current_folder (f.length - 1) : ℤ)), pos)
  else
    transitionLoop f ((f.length : ℤ) - 1) filelist
      (current_depth - ((current_folder.length : ℤ) -
        (sameCnt f current_folder (f.length - 1) : ℤ))) pos

/-- The row-building loop of create_filelist: emit the directory transition
whenever the folder of the file differs from the current one, then the file
row at the current depth. -/
def create_filelist_rows :
    List (List String) → List String → ℤ → ℤ → List FileRow → List FileRow
  | [], _, _, _, filelist => filelist
  | f :: rest, current_folder, current_depth, pos, filelist =>
      if f.take (f.length - 1) ≠ current_folder then
        match create_filelist_transition f current_folder filelist
            current_depth pos with
        | (filelist2, depth2, pos2) =>
            create_filelist_rows rest (f.take (f.length - 1)) depth2 pos2
              (filelist2 ++ [.file depth2 (f.getLastD "")])
      else
        create_filelist_rows rest current_folder current_depth pos
          (filelist ++ [.file current_depth (f.getLastD "")])

/-- The file list rows built for one sorted file list, starting from the
empty folder at depth 0. -/
def create_filelist (files : List (List String)) : List FileRow :=
  create_filelist_rows files [] 0 0 []

/-- The length of the shared prefix of two segment lists. -/
def commonLen : List String → List String → ℕ
  | a :: as, b :: bs => if a = b then commonLen as bs + 1 else 0
  | _, _ => 0

/-- Emit one header row per segment, at increasing depths. -/
def emitHeaders : List String → ℤ → List FileRow
  | [], _ => []
  | d :: ds, depth => .dir depth d :: emitHeaders ds (depth + 1)

/-- Modelled from the spec: walking the files in display order, emit
exactly one directory-header row per path segment newly entered relative to
the previous file directory path (none when only leaving directories), then
the file row at the depth of its directory path. -/
def create_filelist_spec : List (List String) → List String → List FileRow
  | [], _ => []
  | f :: rest, prev =>
      emitHeaders (f.dropLast.drop (commonLen f.dropLast prev))
        ((commonLen f.dropLast prev : ℕ) : ℤ) ++
      .file ((f.dropLast.length : ℕ) : ℤ) (f.getLastD "") ::
      create_filelist_spec rest f.dropLast

end Tremc

-- ============================================================

namespace Tremc

/-! ## Theorems -/

/-- C10: computing the percent-complete field never raises: for every list
of torrents the traversal succeeds, and a torrent with zero size-when-done or
zero have-bytes gets 0.0 rather than failing the response. -/
theorem c10_percent_total (ts : List TorrentRaw) :
    parse_response_percents ts =
      .ok (ts.map fun t =>
        if t.sizeWhenDone = 0 ∨ t.haveValid + t.haveUnchecked = 0 then 0
        else 100 / (t.sizeWhenDone / (t.haveValid + t.haveUnchecked))) := by
  have hpt : ∀ t : TorrentRaw,
      percent t.sizeWhenDone (t.haveValid + t.haveUnchecked) =
        .ok (if t.sizeWhenDone = 0 ∨ t.haveValid + t.haveUnchecked = 0 then 0
          else 100 / (t.sizeWhenDone / (t.haveValid + t.haveUnchecked))) := by
    intro t
    by_cases hp : t.haveValid + t.haveUnchecked = 0
    · simp [percent, percentTry, pydiv, hp, bind, Except.bind]
    · by_cases hf : t.sizeWhenDone = 0
      · simp [percent, percentTry, pydiv, hp, hf, bind, Except.bind]
      · have hq : t.sizeWhenDone / (t.haveValid + t.haveUnchecked) ≠ 0 :=
          div_ne_zero hf hp
        simp [percent, percentTry, pydiv, hp, hf, hq, bind, Except.bind]
  induction ts with
  | nil => rfl
  | cons t ts ih =>
      simp only [parse_response_percents, List.mapM_cons, List.map_cons] at *
      rw [hpt t]
      simp only [bind, Except.bind]
      rw [ih]
      rfl

/-- C1 counterexample: the claim says two consecutive re-authentication
challenges are fatal and the request is retried exactly once.  On the reply
script challenge(a), challenge(b), success the code captures each token and
retries after each challenge: the exchange completes (is not fatal) after two
retries. -/
theorem c1_two_challenges_not_fatal :
    send_request none [.challengeTok "a", .challengeTok "b", .success] =
      some ([none, some "a", some "b"], .completed) := by
  rfl

/-- C1 amended: on the first challenge carrying a session token the session
captures the token and transparently retries the same request with the token
attached as a header, completing the original request on a subsequent
success; a challenge without an extractable token is fatal with the
connection-error exit code (as is a transport error); and every further
challenge carrying a token causes a further retry (retrying is once per
token-carrying challenge, not once overall). -/
theorem c1_auth_retry_amended (sid : Option String) (t : String) :
    send_request sid [.challengeTok t, .success] =
      some ([sid, some t], .completed) ∧
    send_request sid [.challengeTok t, .challengeNoTok] =
      some ([sid, some t], .exited CONNECTION_ERROR) ∧
    send_request sid [.urlError] = some ([sid], .exited CONNECTION_ERROR) ∧
    (∀ (u : String) (rest : List ServerReply),
      send_request sid (.challengeTok t :: .challengeTok u :: rest) =
        match send_request (some u) rest with
        | none => none
        | some (hdrs, out) => some (sid :: some t :: hdrs, out)) := by
  refine ⟨rfl, rfl, rfl, fun u rest => ?_⟩
  simp only [send_request]
  cases send_request (some u) rest with
  | none => rfl
  | some v => rfl

/-- C2 counterexample: the claim says a response body that fails to decode
is non-fatal.  In the code a completed read whose bytes cannot be
json-decoded calls exit_prog with the JSON error code: the process
terminates. -/
theorem c2_decode_failure_fatal :
    update_step 0 (some .okGarbage) = .error JSON_ERROR := by
  rfl

/-- C2 amended: a read interrupted mid-read (connection reset, or any other
read exception) is non-fatal: the polling cycle leaves the cache unchanged,
does not terminate, and keeps the request open so the next cycle polls it
again; a response body that fails to decode, however, is fatal: the process
exits with the JSON error code. -/
theorem c2_transient_fetch_amended (cache : Int) :
    update_step cache (some .connReset) = .ok (cache, some .connReset, false) ∧
    update_step cache (some .otherExc) = .ok (cache, some .otherExc, false) ∧
    update_step cache none = .ok (cache, none, true) ∧
    update_step cache (some .okGarbage) = .error JSON_ERROR := by
  exact ⟨rfl, rfl, rfl, rfl⟩

end Tremc


namespace Tremc

/-! ## Theorems for the peer-rate estimator (C5) -/

/-- C5 counterexample: the claim says that whenever more than 60 seconds pass
with no qualifying update the cached rate is reset to the unknown value.  A
sample for a completed peer (progress 1) arriving 100 seconds after the last
update leaves the stale cached rate 7 in place: the whole estimator body is
guarded by progress < 1. -/
theorem c5_no_reset_at_full_progress :
    (100 : ℚ) - 0 > 60 ∧
    (upgrade_peer (some ⟨1/2, 0, 7, 3⟩) (some [7]) 1 100 1000).1 =
      ⟨1/2, 0, 7, 3⟩ := by
  constructor
  · norm_num
  · rfl

/-- C5 amended: a sample arriving less than 5 seconds after the last update
never changes the cached rate; the rate changes only through a qualifying
update (progress increased and more than — in particular at least — 5
seconds elapsed) or through the reset to the unknown value 0 after more than
60 seconds; and the reset after more than 60 seconds without a qualifying
update happens only for samples whose progress is below 1: completed peers
are skipped entirely, keeping the stale rate. -/
theorem c5_rate_estimator_amended (e : PeerEntry) (w : Option (List ℚ))
    (p now ts : ℚ) :
    (now - e.last_update < 5 →
      (upgrade_peer (some e) w p now ts).1.download_speed =
        e.download_speed) ∧
    ((upgrade_peer (some e) w p now ts).1.download_speed ≠
        e.download_speed →
      (p - e.last_progress > 0 ∧ 5 ≤ now - e.last_update ∧
        (upgrade_peer (some e) w p now ts).1.download_speed =
          normalizer_get (some (normalizer_add w
            (ts * (p - e.last_progress) / (now - e.last_update)) 10))) ∨
      (now - e.last_update > 60 ∧
        (upgrade_peer (some e) w p now ts).1.download_speed = 0)) ∧
    (p < 1 → now - e.last_update > 60 →
      ¬(e.last_progress ≠ 0 ∧ p - e.last_progress > 0 ∧
          now - e.last_update > 5) →
      (upgrade_peer (some e) w p now ts).1 = ⟨p, now, 0, 0⟩) := by
  simp only [upgrade_peer]
  by_cases hp : p < 1
  · rw [if_pos hp]
    by_cases hq : e.last_progress ≠ 0 ∧ p - e.last_progress > 0 ∧
        now - e.last_update > 5
    · rw [if_pos hq]
      refine ⟨fun h5 => absurd hq.2.2 (by linarith), fun _ => ?_, ?_⟩
      · exact Or.inl ⟨hq.2.1, le_of_lt hq.2.2, rfl⟩
      · intro _ _ hn
        exact absurd hq hn
    · rw [if_neg hq]
      by_cases h60 : now - e.last_update > 60
      · rw [if_pos h60]
        refine ⟨fun h5 => absurd h60 (by linarith), fun _ => ?_, ?_⟩
        · exact Or.inr ⟨h60, rfl⟩
        · intro _ _ _
          rfl
      · rw [if_neg h60]
        exact ⟨fun _ => rfl, fun h => absurd rfl h,
          fun _ h60x _ => absurd h60x h60⟩
  · rw [if_neg hp]
    exact ⟨fun _ => rfl, fun h => absurd rfl h, fun h1 _ _ => absurd h1 hp⟩

/-- Witness for the amended C5 theorem: at a concrete state 61 seconds stale
with unchanged progress below 1, the next sample resets the estimator. -/
theorem c5_rate_estimator_amended_witness :
    (upgrade_peer (some ⟨1/2, 0, 7, 3⟩) none (1/2) 100 1000).1 =
      ⟨1/2, 100, 0, 0⟩ :=
  (c5_rate_estimator_amended ⟨1/2, 0, 7, 3⟩ none (1/2) 100 1000).2.2
    (by norm_num) (by norm_num) (by norm_num)

end Tremc

namespace Tremc

/-! ## Theorems for the file-priority transitions (C6) -/

theorem overwriteAt_length (ns : List ℕ) (v : α) :
    ∀ (l : List α) (k : ℕ), (overwriteAt ns v l k).length = l.length
  | [], _ => rfl
  | a :: as, k => by
      simp [overwriteAt, overwriteAt_length ns v as (k + 1)]

theorem overwriteAt_getD (ns : List ℕ) (v : α) :
    ∀ (l : List α) (k i : ℕ) (d : α), i < l.length →
      (overwriteAt ns v l k).getD i d =
        if (k + i) ∈ ns then v else l.getD i d
  | [], _, i, _, hi => absurd hi (by simp)
  | a :: as, k, 0, d, _ => by simp [overwriteAt]
  | a :: as, k, i + 1, d, hi => by
      have hi2 : i < as.length := by simpa using hi
      have := overwriteAt_getD ns v as (k + 1) i d hi2
      simp only [overwriteAt, List.getD_cons_succ]
      rw [this]
      have hkk : k + 1 + i = k + (i + 1) := by omega
      rw [hkk]

theorem inc_ref_unwanted (st : FileState) :
    ∀ (nums : List ℕ) (ref : ℕ), (∃ i ∈ nums, st.wantedAt i = false) →
      st.wantedAt (inc_ref st nums ref) = false
  | [], ref, h => by simp at h
  | n :: rest, ref, h => by
      by_cases hn : st.wantedAt n
      · have hrest : ∃ i ∈ rest, st.wantedAt i = false := by
          rcases h with ⟨i, hi, hw⟩
          rcases List.mem_cons.mp hi with rfl | hi2
          · exact absurd hw (by simp [hn])
          · exact ⟨i, hi2, hw⟩
        simp only [inc_ref, hn, not_true_eq_false, if_false]
        by_cases hlt : st.prioAt n < st.prioAt ref
        · rw [if_pos hlt]
          exact inc_ref_unwanted st rest n hrest
        · rw [if_neg hlt]
          exact inc_ref_unwanted st rest ref hrest
      · simp only [inc_ref, hn, not_false_eq_true, if_true]
        simpa using hn

theorem inc_ref_min (st : FileState) :
    ∀ (nums : List ℕ) (ref : ℕ), (∀ i ∈ nums, st.wantedAt i = true) →
      st.prioAt (inc_ref st nums ref) =
        (nums.map st.prioAt).foldl min (st.prioAt ref)
  | [], ref, _ => rfl
  | n :: rest, ref, h => by
      have hn : st.wantedAt n = true := h n (List.mem_cons_self n rest)
      have hrest : ∀ i ∈ rest, st.wantedAt i = true :=
        fun i hi => h i (List.mem_cons_of_mem n hi)
      simp only [inc_ref, hn, not_true_eq_false, if_false, List.map_cons,
        List.foldl_cons]
      by_cases hlt : st.prioAt n < st.prioAt ref
      · rw [if_pos hlt, inc_ref_min st rest n hrest,
          min_eq_right (le_of_lt hlt)]
      · rw [if_neg hlt, inc_ref_min st rest ref hrest,
          min_eq_left (le_of_not_lt hlt)]

/-- C6 counterexample: the claim says lowering a file already unwanted
leaves its priority encoding unchanged.  Lowering a single unwanted file
whose numeric priority is 0 (the normal tier, which is what freshly
deselected files carry) issues priority low together with files-wanted: the
file becomes wanted at low priority, so its encoding changes from off to
low. -/
theorem c6_lower_unwanted_changes_encoding :
    get_file_priority ⟨[false], [0]⟩ 0 = "off" ∧
    decrease_file_priority ⟨[false], [0]⟩ [0] = some .low ∧
    run_decrease ⟨[false], [0]⟩ [0] = ⟨[true], [-1]⟩ ∧
    get_file_priority (run_decrease ⟨[false], [0]⟩ [0]) 0 = "low" := by
  refine ⟨rfl, rfl, ?_, ?_⟩ <;> decide

/-- C6 amended: raising when the representative file is unwanted sets the
whole selection to low priority and wanted; raising from low yields normal
and from normal yields high (high is a no-op); lowering is the mirror
transition high to normal to low; lowering when the representative numeric
priority is -1 issues files-unwanted, which leaves the priority encoding of
already-unwanted files unchanged, but lowering when the representative
numeric priority is 0 re-wants every selected file at low priority (the
lowering representative ignores the wanted flag), so lowering an unwanted
file of normal numeric priority does change its encoding; the raising
representative is the first unwanted selected file if any, else a selected
file of lowest numeric priority. -/
theorem c6_priority_transitions_amended (st : FileState) (first : ℕ)
    (rest : List ℕ) :
    (st.wantedAt (inc_ref st (first :: rest) first) = false →
      increase_file_priority st (first :: rest) = some .low) ∧
    (st.wantedAt (inc_ref st (first :: rest) first) = true →
      (st.prioAt (inc_ref st (first :: rest) first) = -1 →
        increase_file_priority st (first :: rest) = some .normal) ∧
      (st.prioAt (inc_ref st (first :: rest) first) = 0 →
        increase_file_priority st (first :: rest) = some .high) ∧
      (st.prioAt (inc_ref st (first :: rest) first) = 1 →
        increase_file_priority st (first :: rest) = none)) ∧
    (st.prioAt (dec_ref st (first :: rest) first) ≥ 1 →
      decrease_file_priority st (first :: rest) = some .normal) ∧
    (st.prioAt (dec_ref st (first :: rest) first) = 0 →
      decrease_file_priority st (first :: rest) = some .low) ∧
    (st.prioAt (dec_ref st (first :: rest) first) = -1 →
      decrease_file_priority st (first :: rest) = some .off) ∧
    (∀ i ∈ first :: rest, i < st.wanted.length → i < st.priorities.length →
      (st.wantedAt (inc_ref st (first :: rest) first) = false →
        (run_increase st (first :: rest)).wantedAt i = true ∧
        (run_increase st (first :: rest)).prioAt i = -1) ∧
      (st.prioAt (dec_ref st (first :: rest) first) = 0 →
        (run_decrease st (first :: rest)).wantedAt i = true ∧
        (run_decrease st (first :: rest)).prioAt i = -1) ∧
      (st.prioAt (dec_ref st (first :: rest) first) = -1 →
        (run_decrease st (first :: rest)).wantedAt i = false ∧
        (run_decrease st (first :: rest)).prioAt i = st.prioAt i)) ∧
    ((∀ i ∈ first :: rest, st.wantedAt i = true) →
      st.prioAt (inc_ref st (first :: rest) first) =
        ((first :: rest).map st.prioAt).foldl min (st.prioAt first)) ∧
    ((∃ i ∈ first :: rest, st.wantedAt i = false) →
      st.wantedAt (inc_ref st (first :: rest) first) = false) := by
  have hinc_low : st.wantedAt (inc_ref st (first :: rest) first) = false →
      increase_file_priority st (first :: rest) = some .low := by
    intro h
    simp [increase_file_priority, h]
  have hdec_low : st.prioAt (dec_ref st (first :: rest) first) = 0 →
      decrease_file_priority st (first :: rest) = some .low := by
    intro h
    simp only [decrease_file_priority]
    rw [if_neg (by omega), if_pos h]
  have hdec_off : st.prioAt (dec_ref st (first :: rest) first) = -1 →
      decrease_file_priority st (first :: rest) = some .off := by
    intro h
    simp only [decrease_file_priority]
    rw [if_neg (by omega), if_neg (by omega), if_pos h]
  refine ⟨hinc_low, ?_, ?_, hdec_low, hdec_off, ?_, ?_, ?_⟩
  · intro hw
    have hnw : ¬¬(st.wantedAt (inc_ref st (first :: rest) first) = true) := by
      simp [hw]
    refine ⟨fun h => ?_, fun h => ?_, fun h => ?_⟩
    · simp only [increase_file_priority]
      rw [if_neg (by simpa using hnw), if_pos h]
    · simp only [increase_file_priority]
      rw [if_neg (by simpa using hnw), if_neg (by omega), if_pos h]
    · simp only [increase_file_priority]
      rw [if_neg (by simpa using hnw), if_neg (by omega), if_neg (by omega)]
  · intro h
    simp only [decrease_file_priority]
    rw [if_pos h]
  · intro i hi hiw hip
    refine ⟨fun h => ?_, fun h => ?_, fun h => ?_⟩
    · rw [run_increase, hinc_low h]
      constructor
      · rw [FileState.wantedAt]
        show (overwriteAt (first :: rest) true st.wanted 0).getD i false = true
        rw [overwriteAt_getD _ _ _ _ _ _ hiw]
        simp [hi]
      · rw [FileState.prioAt]
        show (overwriteAt (first :: rest) (-1) st.priorities 0).getD i 0 = -1
        rw [overwriteAt_getD _ _ _ _ _ _ hip]
        simp [hi]
    · rw [run_decrease, hdec_low h]
      constructor
      · rw [FileState.wantedAt]
        show (overwriteAt (first :: rest) true st.wanted 0).getD i false = true
        rw [overwriteAt_getD _ _ _ _ _ _ hiw]
        simp [hi]
      · rw [FileState.prioAt]
        show (overwriteAt (first :: rest) (-1) st.priorities 0).getD i 0 = -1
        rw [overwriteAt_getD _ _ _ _ _ _ hip]
        simp [hi]
    · rw [run_decrease, hdec_off h]
      constructor
      · rw [FileState.wantedAt]
        show (overwriteAt (first :: rest) false st.wanted 0).getD i false =
          false
        rw [overwriteAt_getD _ _ _ _ _ _ hiw]
        simp [hi]
      · rfl
  · exact inc_ref_min st (first :: rest) first
  · exact inc_ref_unwanted st (first :: rest) first

/-- Witness for the amended C6 theorem: a selection whose first file is
unwanted makes the raise issue priority low for the whole selection. -/
theorem c6_priority_transitions_amended_witness :
    increase_file_priority ⟨[false, true], [0, 1]⟩ [0, 1] = some .low :=
  (c6_priority_transitions_amended ⟨[false, true], [0, 1]⟩ 0 [1]).1
    (by decide)

end Tremc

namespace Tremc

/-! ## Theorems for the canonical sort string (C9) -/

theorem padDigits_length : ∀ (n x : ℕ), (padDigits n x).length = n
  | 0, _ => rfl
  | n + 1, x => by simp [padDigits, padDigits_length n (x / 10)]

theorem lexAppend {α : Type} {r : α → α → Prop} :
    ∀ (l₁ l₂ s t : List α), l₁.length = l₂.length →
      List.Lex r l₁ l₂ → List.Lex r (l₁ ++ s) (l₂ ++ t)
  | [], [], _, _, _, h => by cases h
  | [], _ :: _, _, _, hl, _ => by simp at hl
  | _ :: _, [], _, _, hl, _ => by simp at hl
  | a :: as, b :: bs, s, t, hl, h => by
      cases h with
      | rel hab => exact List.Lex.rel hab
      | cons h2 =>
          exact List.Lex.cons (lexAppend as bs s t (by simpa using hl) h2)

theorem lexLast {α : Type} {r : α → α → Prop} {a b : α} (hab : r a b) :
    ∀ (l : List α), List.Lex r (l ++ [a]) (l ++ [b])
  | [] => List.Lex.rel hab
  | _ :: l => List.Lex.cons (lexLast hab l)

theorem digitChar_lt : ∀ a < 10, ∀ b < 10, a < b →
    Char.ofNat (48 + a) < Char.ofNat (48 + b) := by decide

theorem dash_lt_digit : ∀ d < 10, ( '-' : Char) < Char.ofNat (48 + d) := by
  decide

theorem padDigits_lt : ∀ (n x y : ℕ), x < y → y < 10 ^ n →
    List.Lex (fun c d : Char => c < d) (padDigits n x) (padDigits n y)
  | 0, _, y, hxy, hy => absurd hxy (by omega)
  | n + 1, x, y, hxy, hy => by
      have hpow : (10 : ℕ) ^ (n + 1) = 10 ^ n * 10 := pow_succ 10 n
      have hy10 : y / 10 < 10 ^ n := by omega
      rcases Nat.lt_or_ge (x / 10) (y / 10) with hq | hq
      · simp only [padDigits]
        exact lexAppend _ _ _ _ (by simp [padDigits_length])
          (padDigits_lt n (x / 10) (y / 10) hq hy10)
      · have hqe : x / 10 = y / 10 :=
          le_antisymm (Nat.div_le_div_right (le_of_lt hxy)) hq
        have hm : x % 10 < y % 10 := by omega
        simp only [padDigits, hqe]
        exact lexLast (digitChar_lt _ (Nat.mod_lt _ (by norm_num)) _
          (Nat.mod_lt _ (by norm_num)) hm) _

theorem padDigits_head : ∀ (n x : ℕ), 0 < n →
    ∃ (d : ℕ) (rest : List Char),
      d < 10 ∧ padDigits n x = Char.ofNat (48 + d) :: rest
  | 1, x, _ => ⟨x % 10, [], Nat.mod_lt _ (by norm_num), rfl⟩
  | n + 2, x, _ => by
      obtain ⟨d, rest, hd, heq⟩ := padDigits_head (n + 1) (x / 10) (by omega)
      exact ⟨d, rest ++ [Char.ofNat (48 + x % 10)], hd, by
        simp only [padDigits] at heq ⊢
        rw [heq]
        simp⟩

theorem listChar_lt_of_lex {l₁ l₂ : List Char}
    (h : List.Lex (fun c d : Char => c < d) l₁ l₂) : l₁ < l₂ :=
  h

/-- The lexicographic order on the embedded character sequences is the
order of the corresponding Lean strings. -/
theorem le_iff_mkString_le (l₁ l₂ : List Char) :
    String.mk l₁ ≤ String.mk l₂ ↔ l₁ ≤ l₂ :=
  String.le_iff_toList_le

theorem fmt027_lt_of_nonneg {x y : ℤ} (hx : 0 ≤ x) (hxy : x < y)
    (hy : y < 100000000000000000000) : fmt027 x < fmt027 y := by
  rw [fmt027, if_neg (by omega), fmt027, if_neg (by omega)]
  have h20 : (10 : ℕ) ^ 20 = 100000000000000000000 := by norm_num
  exact listChar_lt_of_lex (lexAppend _ _ _ _ (by simp [padDigits_length])
    (padDigits_lt 20 x.toNat y.toNat (by omega) (by rw [h20]; omega)))

theorem fmt027_lt_of_neg_nonneg {x y : ℤ} (hx : x < 0) (hy0 : 0 ≤ y) :
    fmt027 x < fmt027 y := by
  rw [fmt027, if_pos hx, fmt027, if_neg (by omega)]
  obtain ⟨d, rest, hd, heq⟩ := padDigits_head 20 y.toNat (by norm_num)
  rw [heq]
  apply listChar_lt_of_lex
  rw [List.cons_append]
  exact List.Lex.rel (dash_lt_digit d hd)

theorem fmt027_lt_of_neg_neg {x y : ℤ}
    (hx : -10000000000000000000 < x) (hxy : x < y) (hy : y < 0) :
    fmt027 y < fmt027 x := by
  rw [fmt027, if_pos (by omega), fmt027, if_pos (by omega)]
  have h19 : (10 : ℕ) ^ 19 = 10000000000000000000 := by norm_num
  apply listChar_lt_of_lex
  exact List.Lex.cons (lexAppend _ _ _ _ (by simp [padDigits_length])
    (padDigits_lt 19 y.natAbs x.natAbs (by omega) (by rw [h19]; omega)))

theorem fmt027_le_of_nonneg {x y : ℤ} (hx : 0 ≤ x) (hxy : x ≤ y)
    (hy : y < 100000000000000000000) : fmt027 x ≤ fmt027 y := by
  rcases eq_or_lt_of_le hxy with rfl | hlt
  · exact le_refl _
  · exact le_of_lt (fmt027_lt_of_nonneg hx hlt hy)

theorem fmt027_le_iff_of_nonneg {x y : ℤ} (hx : 0 ≤ x) (hy : 0 ≤ y)
    (hxB : x < 100000000000000000000) (hyB : y < 100000000000000000000) :
    fmt027 x ≤ fmt027 y ↔ x ≤ y := by
  constructor
  · intro h
    by_contra hyx
    exact absurd h (not_le_of_lt (fmt027_lt_of_nonneg hy (by omega) hxB))
  · intro h
    exact fmt027_le_of_nonneg hx h hyB

/-- C9 counterexample: the claim extends the monotonicity to negative
values such as the eta sentinels.  For the negatives -2 and -1 the formatted
strings compare in the opposite direction: the digits grow away from the
minus sign. -/
theorem c9_negatives_break_monotonicity :
    (-2 : ℤ) ≤ -1 ∧ ¬ sort_value (.num (-2)) ≤ sort_value (.num (-1)) := by
  constructor
  · decide
  · decide

/-- C9 amended: the canonical sort string is monotone in the numeric value
for nonnegative values inside the zero-filled width (below 10 to the 20);
every negative value sorts lexically before every nonnegative value; but
among negative values the lexical order is the reverse of the numeric
order, so negative sentinels such as eta -1 and -2 compare inverted. -/
theorem c9_sort_value_order_amended :
    (∀ x y : ℤ, 0 ≤ x → x ≤ y → y < 100000000000000000000 →
      sort_value (.num x) ≤ sort_value (.num y)) ∧
    (∀ x y : ℤ, x < 0 → 0 ≤ y →
      sort_value (.num x) < sort_value (.num y)) ∧
    (∀ x y : ℤ, -10000000000000000000 < x → x < y → y < 0 →
      sort_value (.num y) < sort_value (.num x)) :=
  ⟨fun _ _ hx hxy hy => fmt027_le_of_nonneg hx hxy hy,
   fun _ _ hx hy0 => fmt027_lt_of_neg_nonneg hx hy0,
   fun _ _ hx hxy hy => fmt027_lt_of_neg_neg hx hxy hy⟩

/-- Witness for the amended C9 theorem at concrete values. -/
theorem c9_sort_value_order_amended_witness :
    sort_value (.num 3) ≤ sort_value (.num 5) :=
  c9_sort_value_order_amended.1 3 5 (by norm_num) (by norm_num)
    (by norm_num)

end Tremc

namespace Tremc

/-! ## Theorems for the multi-key sort (C3) -/

theorem pyLe_status_iff (a b : Torrent) :
    pyLe ⟨.status, false⟩ a b ↔ statusKey a ≤ statusKey b := by
  simp [pyLe, sortKey, torrentAttr, statusKey]

theorem pyLe_name_iff (a b : Torrent) :
    pyLe ⟨.name, false⟩ a b ↔ nameKey a ≤ nameKey b := by
  simp [pyLe, sortKey, torrentAttr, nameKey]

theorem get_statusThenName (l : List Torrent) :
    get_torrent_list statusThenName l =
      List.insertionSort (pyLe ⟨.name, false⟩)
        (List.insertionSort (pyLe ⟨.status, false⟩) l) :=
  rfl

theorem pair_sublist_status_sorted :
    ∀ {m : List Torrent}, m.Sorted (pyLe ⟨.status, false⟩) →
      ∀ {a b : Torrent}, b ∈ m → a ∈ m → statusKey b < statusKey a →
        [b, a].Sublist m := by
  intro m
  induction m with
  | nil =>
      intro _ a b hb
      simp at hb
  | cons c tl ih =>
      intro hs a b hb ha hlt
      rcases List.sorted_cons.mp hs with ⟨hc, hs2⟩
      rcases List.mem_cons.mp hb with rfl | hbtl
      · have hatl : a ∈ tl := by
          rcases List.mem_cons.mp ha with rfl | hatl
          · exact absurd hlt (lt_irrefl _)
          · exact hatl
        exact List.Sublist.cons₂ _ (List.singleton_sublist.mpr hatl)
      · rcases List.mem_cons.mp ha with rfl | hatl
        · exact absurd ((pyLe_status_iff _ _).mp (hc b hbtl))
            (not_le_of_lt hlt)
        · exact List.Sublist.cons c (ih hs2 hbtl hatl hlt)

theorem sublist_pair_antisymm {α : Type} :
    ∀ {l : List α} {a b : α}, l.Nodup → [a, b].Sublist l →
      [b, a].Sublist l → a = b := by
  intro l
  induction l with
  | nil =>
      intro a b _ h1 _
      exact absurd h1 (by simp)
  | cons c tl ih =>
      intro a b hnd h1 h2
      rcases List.nodup_cons.mp hnd with ⟨hc, hnd2⟩
      cases h1 with
      | cons _ h1b =>
          cases h2 with
          | cons _ h2b => exact ih hnd2 h1b h2b
          | cons₂ _ h2b =>
              exact absurd (h1b.subset (by simp)) hc
      | cons₂ _ h1b =>
          cases h2 with
          | cons _ h2b => exact absurd (h2b.subset (by simp)) hc
          | cons₂ _ h2b => rfl

theorem keysNe_symm {a b : Torrent} (h : keysNe a b) : keysNe b a :=
  fun heq => h heq.symm

theorem nodup_of_pairwise_keysNe {l : List Torrent}
    (hkeys : l.Pairwise keysNe) : l.Nodup :=
  hkeys.imp fun hne heq => hne (by rw [heq])

theorem sorted_lexNS (l : List Torrent) (hkeys : l.Pairwise keysNe) :
    (get_torrent_list statusThenName l).Sorted lexNS := by
  have hmsort : (List.insertionSort (pyLe ⟨.status, false⟩) l).Sorted
      (pyLe ⟨.status, false⟩) := List.sorted_insertionSort _ _
  have hRsortN : (get_torrent_list statusThenName l).Sorted
      (pyLe ⟨.name, false⟩) := List.sorted_insertionSort _ _
  have hRm : (get_torrent_list statusThenName l).Perm
      (List.insertionSort (pyLe ⟨.status, false⟩) l) :=
    List.perm_insertionSort _ _
  have hRperm : (get_torrent_list statusThenName l).Perm l :=
    hRm.trans (List.perm_insertionSort _ _)
  have hnodupR : (get_torrent_list statusThenName l).Nodup :=
    hRperm.nodup_iff.mpr (nodup_of_pairwise_keysNe hkeys)
  rw [List.Sorted, List.pairwise_iff_forall_sublist]
  intro a b hab
  have hname : nameKey a ≤ nameKey b :=
    (pyLe_name_iff a b).mp (List.pairwise_iff_forall_sublist.mp hRsortN hab)
  rcases lt_or_eq_of_le hname with hlt | heq
  · exact Or.inl hlt
  · refine Or.inr ⟨heq, ?_⟩
    by_contra hsk
    have hslt : statusKey b < statusKey a := lt_of_not_le hsk
    have ham : a ∈ List.insertionSort (pyLe ⟨.status, false⟩) l :=
      hRm.subset (hab.subset (by simp))
    have hbm : b ∈ List.insertionSort (pyLe ⟨.status, false⟩) l :=
      hRm.subset (hab.subset (by simp))
    have hpair := pair_sublist_status_sorted hmsort hbm ham hslt
    have hple : pyLe ⟨.name, false⟩ b a :=
      (pyLe_name_iff b a).mpr (le_of_eq heq.symm)
    have hba : [b, a].Sublist (get_torrent_list statusThenName l) :=
      List.pair_sublist_insertionSort hple hpair
    have heqab : a = b := sublist_pair_antisymm hnodupR hab hba
    rw [heqab] at hslt
    exact lt_irrefl _ hslt

theorem lexNSlt_asymm {a b : Torrent} (h1 : lexNSlt a b)
    (h2 : lexNSlt b a) : False := by
  rcases h1 with h1 | ⟨he1, h1⟩ <;> rcases h2 with h2 | ⟨he2, h2⟩
  · exact absurd h2 (lt_asymm h1)
  · exact absurd he2 (ne_of_gt h1)
  · exact absurd he1 (ne_of_gt h2)
  · exact absurd h2 (lt_asymm h1)

theorem sorted_strict (l : List Torrent) (hkeys : l.Pairwise keysNe) :
    (get_torrent_list statusThenName l).Sorted
      (fun a b => lexNSlt a b ∨ a = b) := by
  have hs := sorted_lexNS l hkeys
  have hkR : (get_torrent_list statusThenName l).Pairwise keysNe := by
    have hRperm : (get_torrent_list statusThenName l).Perm l :=
      (List.perm_insertionSort _ _).trans (List.perm_insertionSort _ _)
    exact (hRperm.pairwise_iff (fun hxy => keysNe_symm hxy)).mpr hkeys
  have := (List.Pairwise.and hs hkR)
  exact this.imp fun hab => by
    rcases hab with ⟨hlex, hne⟩
    rcases hlex with hlt | ⟨heq, hle⟩
    · exact Or.inl (Or.inl hlt)
    · have hsne : statusKey _ ≠ statusKey _ := fun hskeq =>
        hne (by rw [heq, hskeq])
      exact Or.inl (Or.inr ⟨heq, lt_of_le_of_ne hle hsne⟩)

theorem popOldSortOrders_le_two :
    ∀ l : List SortOrder, (popOldSortOrders l).length ≤ 2
  | [] => by simp [popOldSortOrders]
  | [a] => by simp [popOldSortOrders]
  | [a, b] => by simp [popOldSortOrders]
  | a :: b :: c :: rest => by
      rw [popOldSortOrders]
      exact popOldSortOrders_le_two (b :: c :: rest)

theorem popOldSortOrders_suffix :
    ∀ l : List SortOrder, (popOldSortOrders l).IsSuffix l
  | [] => List.suffix_refl _
  | [a] => List.suffix_refl _
  | [a, b] => List.suffix_refl _
  | a :: b :: c :: rest => by
      rw [popOldSortOrders]
      exact (popOldSortOrders_suffix (b :: c :: rest)).trans
        (List.suffix_cons a _)

/-- C3 counterexample: with the key (status, reverse=false) configured first
and (name, reverse=false) added afterwards, the claim expects the output
grouped by ascending status.  On two torrents with statuses 1 and 2 and
names b and a the code returns the status-2 torrent first: each configured
key is one stable sort pass applied oldest first, so the newest key (name),
sorted last, is the primary key, not the earliest one. -/
theorem c3_primary_key_counterexample :
    get_torrent_list statusThenName
        [⟨1, ['b'], 1⟩, ⟨2, ['a'], 2⟩] =
      [⟨2, ['a'], 2⟩, ⟨1, ['b'], 1⟩] ∧
    (⟨1, ['b'], 1⟩ : Torrent).status < (⟨2, ['a'], 2⟩ : Torrent).status := by
  constructor
  · decide
  · decide

/-- C3 amended: configuring (status, false) and then adding (name, false)
truncates the stack to depth 2 with the newest key last, and sorting yields
the items ordered primarily by ascending lowercased name with equal names
sub-ordered by ascending status key: the most recently configured key is the
outermost sort key (each configured key is a stable sort pass, applied
earliest first, so the last pass dominates).  For every item set whose
(name, status) keys are pairwise distinct, every permutation of it produces
the identical output list. -/
theorem c3_multi_key_sort_amended (l₁ l₂ : List Torrent)
    (hperm : l₁.Perm l₂) (hkeys : l₁.Pairwise keysNe) :
    (get_torrent_list statusThenName l₁).Sorted lexNS ∧
    (get_torrent_list statusThenName l₁).Perm l₁ ∧
    get_torrent_list statusThenName l₁ =
      get_torrent_list statusThenName l₂ ∧
    action_add_sort_order [⟨.status, false⟩] .name false = statusThenName ∧
    (∀ (os : List SortOrder) (c : SortName) (inv : Bool),
      (action_add_sort_order os c inv).length ≤ 2 ∧
      (action_add_sort_order os c inv).IsSuffix (os ++ [⟨c, inv⟩])) := by
  have hkeys2 : l₂.Pairwise keysNe :=
    (hperm.pairwise_iff (fun hxy => keysNe_symm hxy)).mp hkeys
  have hperm1 : (get_torrent_list statusThenName l₁).Perm l₁ :=
    (List.perm_insertionSort _ _).trans (List.perm_insertionSort _ _)
  have hperm2 : (get_torrent_list statusThenName l₂).Perm l₂ :=
    (List.perm_insertionSort _ _).trans (List.perm_insertionSort _ _)
  refine ⟨sorted_lexNS l₁ hkeys, hperm1, ?_, rfl, ?_⟩
  · haveI : IsAntisymm Torrent (fun a b => lexNSlt a b ∨ a = b) :=
      ⟨fun a b h1 h2 => by
        rcases h1 with h1 | h1
        · rcases h2 with h2 | h2
          · exact absurd (lexNSlt_asymm h1 h2) not_false
          · exact h2.symm
        · exact h1⟩
    exact List.eq_of_perm_of_sorted
      (hperm1.trans (hperm.trans hperm2.symm))
      (sorted_strict l₁ hkeys) (sorted_strict l₂ hkeys2)
  · intro os c inv
    exact ⟨popOldSortOrders_le_two _, popOldSortOrders_suffix _⟩

/-- Witness for the amended C3 theorem: the two orderings of a concrete
two-torrent set sort to the identical list. -/
theorem c3_multi_key_sort_amended_witness :
    get_torrent_list statusThenName [⟨1, ['b'], 1⟩, ⟨2, ['a'], 2⟩] =
      get_torrent_list statusThenName [⟨2, ['a'], 2⟩, ⟨1, ['b'], 1⟩] :=
  (c3_multi_key_sort_amended [⟨1, ['b'], 1⟩, ⟨2, ['a'], 2⟩]
    [⟨2, ['a'], 2⟩, ⟨1, ['b'], 1⟩] (List.Perm.swap _ _ _)
    (by simp [keysNe, nameKey, statusKey, sort_value, fmt027])).2.2.1

end Tremc

namespace Tremc

/-! ## Theorems for the movement primitives (C4) -/

theorem floor_to_step_eq (step v : ℤ) (h : v % step = 0) :
    floor_to_step step v = v := by
  rw [floor_to_step]
  simp [h]

theorem scroll_invariant_iff (step epp count k focus : ℤ)
    (hstep : 0 < step) :
    scroll_invariant focus (step * k) step epp count ↔
      0 ≤ focus ∧ focus ≤ count - 1 ∧ k ≤ focus ∧ focus < k + epp := by
  have h1 : step * k ≤ focus * step ↔ k ≤ focus := by
    rw [mul_comm step k]
    exact mul_le_mul_right hstep
  have he : (k + epp) * step = step * k + epp * step := by ring
  have h2f : focus * step ≤ step * k + epp * step - 1 → focus < k + epp := by
    intro h
    refine (mul_lt_mul_right hstep).mp ?_
    linarith
  have h2b : focus < k + epp → focus * step ≤ step * k + epp * step - 1 := by
    intro h
    have hlt := (mul_lt_mul_right hstep).mpr h
    have := Int.lt_iff_add_one_le.mp hlt
    linarith
  unfold scroll_invariant
  constructor
  · rintro ⟨ha, hb, _, hlo, hhi⟩
    exact ⟨ha, hb, h1.mp hlo, h2f hhi⟩
  · rintro ⟨ha, hb, hlo, hhi⟩
    exact ⟨ha, hb, Int.mul_emod_right _ _, h1.mpr hlo, h2b hhi⟩

theorem qdiv_step (step k : ℤ) (hstep : step ≠ 0) :
    ((step * k : ℤ) : ℚ) / (step : ℚ) = (k : ℚ) := by
  push_cast
  rw [mul_comm]
  exact mul_div_cancel_right₀ _ (by exact_mod_cast hstep)

theorem max_zero_mul (step m : ℤ) (hstep : 0 < step) :
    max 0 (step * m) = step * max 0 m := by
  rcases le_or_lt 0 m with h | h
  · rw [max_eq_right (mul_nonneg hstep.le h), max_eq_right h]
  · have hm : step * m ≤ 0 := by
      have := mul_le_mul_of_nonneg_left h.le hstep.le
      simpa using this
    rw [max_eq_left hm, max_eq_left h.le, mul_zero]

/-- C4 counterexample: from the valid state focus 0, scroll 0 (step 1, one
visible row, one item, invariant satisfied) move-one-up returns focus -1,
which is outside the claimed range [0, count-1]: the code uses -1 as its
no-focus sentinel instead of clamping at the top. -/
theorem c4_move_up_at_zero_escapes :
    scroll_invariant 0 0 1 1 1 ∧ move_up 0 0 1 = (-1, 0) ∧
    ¬ scroll_invariant (move_up 0 0 1).1 (move_up 0 0 1).2 1 1 1 := by
  have hmax : max (0 : ℤ) (0 - 1) = 0 := max_eq_left (by norm_num)
  have hmv : move_up 0 0 1 = (-1, 0) := by
    simp only [move_up]
    rw [if_neg (by norm_num : ¬ (0 : ℤ) < 0), if_pos (by norm_num), hmax,
      floor_to_step_eq 1 0 (by norm_num)]
    norm_num
  refine ⟨by norm_num [scroll_invariant], hmv, ?_⟩
  rw [hmv]
  simp [scroll_invariant]

/-- C4 amended: under the strengthened precondition that the starting pair
already satisfies the invariant (the claimed precondition alone does not put
the focus inside the visible band), the scroll offset is nonnegative, and
the step size and page size are positive, each primitive returns a pair
satisfying the invariant again, with move-one-up additionally requiring
focus at least 1: at focus 0 it returns the no-focus sentinel -1 instead. -/
theorem c4_scroll_invariant_amended (focus scrollpos step_size epp count : ℤ)
    (hstep : 0 < step_size) (hepp : 0 < epp) (hscroll : 0 ≤ scrollpos)
    (hinv : scroll_invariant focus scrollpos step_size epp count) :
    (1 ≤ focus →
      scroll_invariant (move_up focus scrollpos step_size).1
        (move_up focus scrollpos step_size).2 step_size epp count ∧
      0 ≤ (move_up focus scrollpos step_size).2) ∧
    (scroll_invariant (move_down focus scrollpos step_size epp count).1
        (move_down focus scrollpos step_size epp count).2
        step_size epp count ∧
      0 ≤ (move_down focus scrollpos step_size epp count).2) ∧
    (scroll_invariant (move_page_up focus scrollpos step_size epp).1
        (move_page_up focus scrollpos step_size epp).2 step_size epp count ∧
      0 ≤ (move_page_up focus scrollpos step_size epp).2) ∧
    (scroll_invariant (move_page_down focus scrollpos step_size epp count).1
        (move_page_down focus scrollpos step_size epp count).2
        step_size epp count ∧
      0 ≤ (move_page_down focus scrollpos step_size epp count).2) ∧
    (scroll_invariant (move_to_end step_size epp count).1
        (move_to_end step_size epp count).2 step_size epp count ∧
      0 ≤ (move_to_end step_size epp count).2) := by
  obtain ⟨k, hk⟩ := Int.dvd_of_emod_eq_zero hinv.2.2.1
  subst hk
  have hiv := (scroll_invariant_iff step_size epp count k focus hstep).mp hinv
  obtain ⟨hf0, hfc, hklo, hkhi⟩ := hiv
  have h0k : 0 ≤ k := by
    by_contra hneg
    push_neg at hneg
    exact absurd hscroll (not_le_of_lt (mul_neg_of_pos_of_neg hstep hneg))
  refine ⟨?_, ?_, ?_, ?_, ?_⟩
  · intro hf1
    simp only [move_up]
    rw [if_neg (by omega : ¬ focus < 0),
      qdiv_step step_size k (ne_of_gt hstep)]
    by_cases hc : (k : ℚ) - ((focus - 1 : ℤ) : ℚ) > 0
    · have hci : focus - 1 < k := by exact_mod_cast sub_pos.mp hc
      rw [if_pos hc]
      have hms : max 0 (step_size * k - step_size) =
          step_size * max 0 (k - 1) := by
        rw [(by ring : step_size * k - step_size = step_size * (k - 1)),
          max_zero_mul _ _ hstep]
      rw [hms, floor_to_step_eq _ _ (Int.mul_emod_right _ _)]
      refine ⟨?_, mul_nonneg hstep.le (le_max_left _ _)⟩
      rw [scroll_invariant_iff step_size epp count (max 0 (k - 1))
        (focus - 1) hstep]
      omega
    · have hci : k ≤ focus - 1 := by
        push_neg at hc
        exact_mod_cast sub_nonpos.mp hc
      rw [if_neg hc, floor_to_step_eq _ _ (Int.mul_emod_right _ _)]
      refine ⟨?_, hscroll⟩
      rw [scroll_invariant_iff step_size epp count k (focus - 1) hstep]
      omega
  · simp only [move_down]
    by_cases hfc2 : focus < count - 1
    · rw [if_pos hfc2, qdiv_step step_size k (ne_of_gt hstep)]
      by_cases hc : ((focus + 1 : ℤ) : ℚ) + 1 - (k : ℚ) >
          ((epp : ℤ) : ℚ)
      · have hci : epp < focus + 2 - k := by
          have h2 : ((epp : ℤ) : ℚ) < ((focus + 2 - k : ℤ) : ℚ) := by
            push_cast
            push_cast at hc
            linarith
          exact_mod_cast h2
        rw [if_pos hc,
          (by ring : step_size * k + step_size = step_size * (k + 1))]
        refine ⟨?_, mul_nonneg hstep.le (by omega)⟩
        rw [scroll_invariant_iff step_size epp count (k + 1)
          (focus + 1) hstep]
        omega
      · have hci : focus + 2 - k ≤ epp := by
          push_neg at hc
          have h2 : ((focus + 2 - k : ℤ) : ℚ) ≤ ((epp : ℤ) : ℚ) := by
            push_cast
            push_cast at hc
            linarith
          exact_mod_cast h2
        rw [if_neg hc]
        refine ⟨?_, hscroll⟩
        rw [scroll_invariant_iff step_size epp count k (focus + 1) hstep]
        omega
    · rw [if_neg hfc2]
      exact ⟨hinv, hscroll⟩
  · simp only [move_page_up]
    have hms : max 0 (step_size * k - (epp - 1) * step_size) =
        step_size * max 0 (k - (epp - 1)) := by
      rw [(by ring : step_size * k - (epp - 1) * step_size =
        step_size * (k - (epp - 1))), max_zero_mul _ _ hstep]
    rw [hms]
    refine ⟨?_, mul_nonneg hstep.le (le_max_left _ _)⟩
    rw [scroll_invariant_iff step_size epp count (max 0 (k - (epp - 1)))
      (max 0 (focus - epp + 1)) hstep]
    omega
  · simp only [move_page_down]
    by_cases hc : focus + (epp - 1) ≥ count
    · rw [if_pos hc,
        (by ring : step_size * k + (epp - 1) * step_size -
          (focus + (epp - 1) - count + 1) * step_size =
          step_size * (k + count - 1 - focus))]
      refine ⟨?_, mul_nonneg hstep.le (by omega)⟩
      rw [scroll_invariant_iff step_size epp count (k + count - 1 - focus)
        (count - 1) hstep]
      omega
    · rw [if_neg hc,
        (by ring : step_size * k + (epp - 1) * step_size =
          step_size * (k + epp - 1))]
      refine ⟨?_, mul_nonneg hstep.le (by omega)⟩
      rw [scroll_invariant_iff step_size epp count (k + epp - 1)
        (focus + (epp - 1)) hstep]
      omega
  · simp only [move_to_end]
    have hms : max 0 ((count - epp) * step_size) =
        step_size * max 0 (count - epp) := by
      rw [(by ring : (count - epp) * step_size =
        step_size * (count - epp)), max_zero_mul _ _ hstep]
    rw [hms]
    refine ⟨?_, mul_nonneg hstep.le (le_max_left _ _)⟩
    rw [scroll_invariant_iff step_size epp count (max 0 (count - epp))
      (count - 1) hstep]
    omega

/-- Witness for the amended C4 theorem: move-one-up from focus 1 in a
two-item list keeps the invariant. -/
theorem c4_scroll_invariant_amended_witness :
    scroll_invariant (move_up 1 1 1).1 (move_up 1 1 1).2 1 1 2 :=
  ((c4_scroll_invariant_amended 1 1 1 1 2 (by norm_num) (by norm_num)
    (by norm_num) (by norm_num [scroll_invariant])).1 (by norm_num)).1

end Tremc

namespace Tremc

/-! ## Theorems for focus follow (C8) -/

theorem follow_up_loop_mul (step focus : ℤ) (hstep : 0 < step) :
    ∀ (n : ℕ) (m : ℤ), (m - focus).toNat ≤ n →
      follow_up_loop step focus (step * m) = step * min m focus
  | 0, m, hn => by
      rw [follow_up_loop, dif_neg, min_eq_left (by omega : m ≤ focus)]
      rintro ⟨_, hc⟩
      rw [qdiv_step step m (ne_of_gt hstep)] at hc
      have hfm : focus < m := by exact_mod_cast hc
      omega
  | n + 1, m, hn => by
      rw [follow_up_loop]
      by_cases hc : (focus : ℚ) < ((step * m : ℤ) : ℚ) / (step : ℚ)
      · have hfm : focus < m := by
          rw [qdiv_step step m (ne_of_gt hstep)] at hc
          exact_mod_cast hc
        rw [dif_pos ⟨hstep, hc⟩,
          (by ring : step * m - step = step * (m - 1)),
          follow_up_loop_mul step focus hstep n (m - 1) (by omega),
          min_eq_right (by omega : focus ≤ m - 1),
          min_eq_right (by omega : focus ≤ m)]
      · have hmf : ¬ focus < m := fun hfm => hc (by
          rw [qdiv_step step m (ne_of_gt hstep)]
          exact_mod_cast hfm)
        rw [dif_neg (fun hh => hc hh.2), min_eq_left (by omega)]

theorem follow_up_loop_closed (step focus m : ℤ) (hstep : 0 < step) :
    follow_up_loop step focus (step * m) = step * min m focus :=
  follow_up_loop_mul step focus hstep (m - focus).toNat m le_rfl

theorem down_cond_iff (step epp focus m : ℤ) (hstep : 0 < step) :
    ((focus : ℚ) > ((step * m : ℤ) : ℚ) / (step : ℚ) + (epp : ℚ) - 1) ↔
      m < focus - epp + 1 := by
  rw [qdiv_step step m (ne_of_gt hstep)]
  constructor
  · intro h
    have h2 : ((m + epp - 1 : ℤ) : ℚ) < (focus : ℚ) := by
      push_cast
      linarith
    have h3 : (m + epp - 1 : ℤ) < focus := by exact_mod_cast h2
    omega
  · intro h
    have h2 : (m + epp - 1 : ℤ) < focus := by omega
    have h3 : ((m + epp - 1 : ℤ) : ℚ) < (focus : ℚ) := by exact_mod_cast h2
    push_cast at h3
    linarith

theorem follow_down_loop_mul (step epp focus : ℤ) (hstep : 0 < step) :
    ∀ (n : ℕ) (m : ℤ), (focus - epp + 1 - m).toNat ≤ n →
      follow_down_loop step epp focus (step * m) =
        step * max m (focus - epp + 1)
  | 0, m, hn => by
      rw [follow_down_loop, dif_neg,
        max_eq_left (by omega : focus - epp + 1 ≤ m)]
      rintro ⟨_, hc⟩
      have := (down_cond_iff step epp focus m hstep).mp hc
      omega
  | n + 1, m, hn => by
      rw [follow_down_loop]
      by_cases hc : (focus : ℚ) >
          ((step * m : ℤ) : ℚ) / (step : ℚ) + (epp : ℚ) - 1
      · have hfm : m < focus - epp + 1 :=
          (down_cond_iff step epp focus m hstep).mp hc
        rw [dif_pos ⟨hstep, hc⟩,
          (by ring : step * m + step = step * (m + 1)),
          follow_down_loop_mul step epp focus hstep n (m + 1) (by omega),
          max_eq_right (by omega : m + 1 ≤ focus - epp + 1),
          max_eq_right (by omega : m ≤ focus - epp + 1)]
      · have hmf : ¬ m < focus - epp + 1 := fun hfm =>
          hc ((down_cond_iff step epp focus m hstep).mpr hfm)
        rw [dif_neg (fun hh => hc hh.2), max_eq_left (by omega)]

theorem follow_down_loop_closed (step epp focus m : ℤ) (hstep : 0 < step) :
    follow_down_loop step epp focus (step * m) =
      step * max m (focus - epp + 1) :=
  follow_down_loop_mul step epp focus hstep (focus - epp + 1 - m).toNat m
    le_rfl

/-- C8: after re-filtering and re-sorting, an absent focused id clears the
focus to -1 (scroll 0); a present focused id keeps the focus on that id:
the new index is in range and carries the focused id, and the scroll offset
equals the minimum whole-step adjustment that keeps the focused row visible
(per min_adjust_spec), clamped to [0, (count - perPage) * step]. -/
theorem c8_focus_follow (torrents : List ℤ)
    (focused_id focus scrollpos step epp : ℤ)
    (hstep : 0 < step) (hepp : 0 < epp) (hmod : scrollpos % step = 0) :
    (focus ≠ -1 → torrents.length = 0 ∨ focused_id ∉ torrents →
      follow_list_focus torrents focused_id focus scrollpos step epp =
        (-1, 0)) ∧
    (focused_id ∈ torrents → 0 ≤ focus →
      0 ≤ follow_new_focus torrents focused_id focus ∧
      follow_new_focus torrents focused_id focus < (torrents.length : ℤ) ∧
      torrents.getD (follow_new_focus torrents focused_id focus).toNat
        (focused_id + 1) = focused_id ∧
      follow_list_focus torrents focused_id focus scrollpos step epp =
        (follow_new_focus torrents focused_id focus,
         max 0 (min
           (min_adjust_spec (follow_new_focus torrents focused_id focus)
             scrollpos step epp)
           (((torrents.length : ℤ) - epp) * step)))) := by
  constructor
  · intro hne habs
    rw [follow_list_focus, if_neg hne, if_pos habs]
  · intro hmem hf0
    have hlen : 0 < torrents.length :=
      List.length_pos.mpr (List.ne_nil_of_mem hmem)
    have hfocus : 0 ≤ follow_new_focus torrents focused_id focus ∧
        follow_new_focus torrents focused_id focus <
          (torrents.length : ℤ) ∧
        torrents.getD (follow_new_focus torrents focused_id focus).toNat
          (focused_id + 1) = focused_id := by
      rw [follow_new_focus]
      by_cases hid : torrents.getD
          (min focus ((torrents.length : ℤ) - 1)).toNat 0 ≠ focused_id
      · rw [if_pos hid]
        have hfind := List.findIdx_lt_length_of_exists
          (p := fun t => t == focused_id) ⟨focused_id, hmem, by simp⟩
        refine ⟨by omega, by omega, ?_⟩
        have hnn : ((torrents.findIdx (fun t => t == focused_id) : ℕ) :
            ℤ).toNat = torrents.findIdx (fun t => t == focused_id) := by
          omega
        rw [hnn, List.getD_eq_getElem _ _ hfind]
        exact eq_of_beq (List.findIdx_getElem (w := hfind))
      · rw [if_neg hid]
        push_neg at hid
        have hlt : (min focus ((torrents.length : ℤ) - 1)).toNat <
            torrents.length := by omega
        refine ⟨by omega, by omega, ?_⟩
        rw [List.getD_eq_getElem _ _ hlt]
        rw [List.getD_eq_getElem _ _ hlt] at hid
        exact hid
    obtain ⟨m, hm⟩ := Int.dvd_of_emod_eq_zero hmod
    refine ⟨hfocus.1, hfocus.2.1, hfocus.2.2, ?_⟩
    rw [follow_list_focus, if_neg (by omega : ¬ focus = -1),
      if_neg (by push_neg; exact ⟨by omega, hmem⟩)]
    subst hm
    rw [follow_up_loop_closed step _ m hstep]
    rw [follow_down_loop_closed step epp _ _ hstep]
    have hAiff : follow_new_focus torrents focused_id focus * step <
        step * m ↔ follow_new_focus torrents focused_id focus < m := by
      rw [mul_comm step m]
      exact mul_lt_mul_right hstep
    have hBiff : step * m + (epp - 1) * step <
        follow_new_focus torrents focused_id focus * step ↔
        m + epp - 1 < follow_new_focus torrents focused_id focus := by
      rw [(by ring : step * m + (epp - 1) * step = (m + epp - 1) * step)]
      exact mul_lt_mul_right hstep
    rw [min_adjust_spec]
    by_cases hA : follow_new_focus torrents focused_id focus < m
    · have h1 : min m (follow_new_focus torrents focused_id focus) =
          follow_new_focus torrents focused_id focus :=
        min_eq_right (by omega)
      have h2 : max (follow_new_focus torrents focused_id focus)
          (follow_new_focus torrents focused_id focus - epp + 1) =
          follow_new_focus torrents focused_id focus :=
        max_eq_left (by omega)
      rw [if_pos (hAiff.mpr hA), h1, h2,
        mul_comm step (follow_new_focus torrents focused_id focus)]
    · have h1 : min m (follow_new_focus torrents focused_id focus) = m :=
        min_eq_left (by omega)
      rw [if_neg (fun hh => hA (hAiff.mp hh)), h1]
      by_cases hB : m + epp - 1 < follow_new_focus torrents focused_id focus
      · have h2 : max m
            (follow_new_focus torrents focused_id focus - epp + 1) =
            follow_new_focus torrents focused_id focus - epp + 1 :=
          max_eq_right (by omega)
        rw [if_pos (hBiff.mpr hB), h2,
          mul_comm step (follow_new_focus torrents focused_id focus - epp + 1)]
      · have h2 : max m
            (follow_new_focus torrents focused_id focus - epp + 1) = m :=
          max_eq_left (by omega)
        rw [if_neg (fun hh => hB (hBiff.mp hh)), h2]

/-- Witness for C8 at a concrete refresh: focus 0 on id 5, after the new
ordering puts id 5 at index 1 of [7, 5], the focus index relocates to 1 and
the scroll window follows. -/
theorem c8_focus_follow_witness :
    0 ≤ follow_new_focus [7, 5] 5 0 ∧
    follow_new_focus [7, 5] 5 0 < 2 ∧
    ([7, 5] : List ℤ).getD (follow_new_focus [7, 5] 5 0).toNat 6 = 5 ∧
    follow_list_focus [7, 5] 5 0 0 1 1 =
      (follow_new_focus [7, 5] 5 0,
       max 0 (min (min_adjust_spec (follow_new_focus [7, 5] 5 0) 0 1 1)
         ((2 - 1) * 1))) :=
  (c8_focus_follow [7, 5] 5 0 0 1 1 (by norm_num) (by norm_num)
    (by norm_num)).2 (by norm_num) (by norm_num)

end Tremc

namespace Tremc

/-! ## Theorems for directory-header synthesis (C7) -/

theorem commonLen_le_left : ∀ (a b : List String), commonLen a b ≤ a.length
  | [], _ => by simp [commonLen]
  | _ :: _, [] => by simp [commonLen]
  | a :: as, b :: bs => by
      by_cases hab : a = b <;>
        simp [commonLen, hab, Nat.succ_le_succ (commonLen_le_left as bs)]

theorem commonLen_le_right : ∀ (a b : List String), commonLen a b ≤ b.length
  | [], _ => by simp [commonLen]
  | _ :: _, [] => by simp [commonLen]
  | a :: as, b :: bs => by
      by_cases hab : a = b <;>
        simp [commonLen, hab, Nat.succ_le_succ (commonLen_le_right as bs)]

theorem commonLen_self : ∀ l : List String, commonLen l l = l.length
  | [] => by simp [commonLen]
  | a :: as => by simp [commonLen, commonLen_self as]

theorem sameCnt_eq_commonLen :
    ∀ (f cf : List String) (n : ℕ), sameCnt f cf n = commonLen (f.take n) cf
  | [], cf, n => by
      cases cf <;> cases n <;> simp [sameCnt, commonLen]
  | a :: as, [], n => by
      cases n <;> simp [sameCnt, commonLen]
  | a :: as, b :: bs, 0 => by simp [sameCnt, commonLen]
  | a :: as, b :: bs, n + 1 => by
      by_cases hab : a = b <;>
        simp [sameCnt, commonLen, hab, sameCnt_eq_commonLen as bs n]

theorem transitionLoop_closed (f : List String) (f_len : ℤ)
    (hfl : f_len ≤ (f.length : ℤ)) :
    ∀ (n : ℕ) (d pos : ℤ) (acc : List FileRow),
      (f_len - d).toNat ≤ n → 0 ≤ d →
      transitionLoop f f_len acc d pos =
        (acc ++ emitHeaders ((f.take f_len.toNat).drop d.toNat) d,
         max d f_len, pos + max 0 (f_len - d))
  | 0, d, pos, acc, hn, hd => by
      rw [transitionLoop, dif_neg (by omega : ¬ d < f_len)]
      have hdrop : (f.take f_len.toNat).drop d.toNat = [] :=
        List.drop_eq_nil_of_le (by rw [List.length_take]; omega)
      have h1 : max d f_len = d := max_eq_left (by omega)
      have h2 : max 0 (f_len - d) = 0 := max_eq_left (by omega)
      rw [hdrop, h1, h2]
      simp [emitHeaders]
  | n + 1, d, pos, acc, hn, hd => by
      by_cases hc : d < f_len
      · rw [transitionLoop, dif_pos hc,
          transitionLoop_closed f f_len hfl n (d + 1) (pos + 1) _
            (by omega) (by omega)]
        have hidx : d.toNat < (f.take f_len.toNat).length := by
          rw [List.length_take]
          omega
        have hcons : (f.take f_len.toNat).drop d.toNat =
            (f.take f_len.toNat)[d.toNat] ::
              (f.take f_len.toNat).drop (d.toNat + 1) :=
          List.drop_eq_getElem_cons hidx
        have hget : (f.take f_len.toNat)[d.toNat] = f.getD d.toNat "" := by
          rw [List.getElem_take]
          exact (List.getD_eq_getElem f "" (by omega)).symm
        have hd1 : (d + 1).toNat = d.toNat + 1 := by omega
        have h1 : max (d + 1) f_len = max d f_len := by omega
        have h2 : pos + 1 + max 0 (f_len - (d + 1)) =
            pos + max 0 (f_len - d) := by omega
        rw [hcons, hget, hd1, h1, h2]
        simp [emitHeaders]
      · rw [transitionLoop, dif_neg hc]
        have hdrop : (f.take f_len.toNat).drop d.toNat = [] :=
          List.drop_eq_nil_of_le (by rw [List.length_take]; omega)
        have h1 : max d f_len = d := max_eq_left (by omega)
        have h2 : max 0 (f_len - d) = 0 := max_eq_left (by omega)
        rw [hdrop, h1, h2]
        simp [emitHeaders]

theorem create_filelist_rows_eq :
    ∀ (files : List (List String)) (cf : List String) (pos : ℤ)
      (acc : List FileRow),
      create_filelist_rows files cf ((cf.length : ℤ)) pos acc =
        acc ++ create_filelist_spec files cf
  | [], cf, pos, acc => by
      simp [create_filelist_rows, create_filelist_spec]
  | f :: rest, cf, pos, acc => by
      have hdl : f.dropLast = f.take (f.length - 1) := List.dropLast_eq_take f
      have hs : (sameCnt f cf (f.length - 1) : ℕ) =
          commonLen f.dropLast cf := by
        rw [sameCnt_eq_commonLen, ← hdl]
      have hsle : commonLen f.dropLast cf ≤ cf.length :=
        commonLen_le_right _ _
      have hsdl : commonLen f.dropLast cf ≤ f.dropLast.length :=
        commonLen_le_left _ _
      have hdll : f.dropLast.length = f.length - 1 := List.length_dropLast f
      by_cases hne : f.take (f.length - 1) ≠ cf
      · simp only [create_filelist_rows, if_pos hne]
        rw [create_filelist_transition]
        have hd2 : (cf.length : ℤ) -
            ((cf.length : ℤ) - (sameCnt f cf (f.length - 1) : ℤ)) =
            ((commonLen f.dropLast cf : ℕ) : ℤ) := by
          rw [hs]
          omega
        by_cases hearly : ((f.length : ℤ) - 1) < (cf.length : ℤ) ∧
            (f.length : ℤ) - 1 = (sameCnt f cf (f.length - 1) : ℤ)
        · rw [if_pos hearly]
          have hfne : 1 ≤ f.length := by
            rcases hearly with ⟨_, he2⟩
            omega
          have hsame : ((commonLen f.dropLast cf : ℕ) : ℤ) =
              ((f.dropLast.length : ℕ) : ℤ) := by
            rcases hearly with ⟨_, he2⟩
            rw [hs] at he2
            omega
          have hdropnil : f.dropLast.drop (commonLen f.dropLast cf) = [] :=
            List.drop_eq_nil_of_le (by omega)
          rw [hd2, hsame, ← hdl]
          rw [create_filelist_rows_eq rest (f.dropLast) pos _]
          simp [create_filelist_spec, hdropnil, emitHeaders]
        · rw [if_neg hearly]
          have hfl : (f.length : ℤ) - 1 ≤ (f.length : ℤ) := by omega
          rw [hd2, transitionLoop_closed f ((f.length : ℤ) - 1) hfl
            (((f.length : ℤ) - 1 - ((commonLen f.dropLast cf : ℕ) : ℤ)).toNat)
            _ _ _ le_rfl (by omega)]
          have htk : f.take ((f.length : ℤ) - 1).toNat = f.dropLast := by
            rw [hdl]
            congr 1
            omega
          have htn : (((commonLen f.dropLast cf : ℕ) : ℤ)).toNat =
              commonLen f.dropLast cf := by omega
          have hmax : max ((commonLen f.dropLast cf : ℕ) : ℤ)
              ((f.length : ℤ) - 1) = ((f.dropLast.length : ℕ) : ℤ) := by
            omega
          rw [htk, htn, hmax, ← hdl]
          rw [create_filelist_rows_eq rest (f.dropLast) _ _]
          simp [create_filelist_spec, emitHeaders]
      · push_neg at hne
        simp only [create_filelist_rows, if_neg (by simp [hne] :
          ¬ f.take (f.length - 1) ≠ cf)]
        rw [create_filelist_rows_eq rest cf pos _]
        have hdcf : f.dropLast = cf := by rw [hdl, hne]
        have hdrophd : f.dropLast.drop (commonLen f.dropLast f.dropLast) =
            [] := by
          rw [commonLen_self]
          exact List.drop_length _
        simp [create_filelist_spec, hdcf, commonLen_self, emitHeaders,
          List.drop_length]

/-- C7: walking the sorted files in display order emits exactly one
synthetic directory-header row per newly entered path segment relative to
the previous file directory path and none when only leaving directories
(the stateful depth bookkeeping of create_filelist_transition coincides
with that specification for every file list); on the claimed display order
a/b/f1, a/b/f2, a/c/f3 the rows are the headers a and b before f1, no
header before f2, and the header c before f3. -/
theorem c7_directory_header_synthesis :
    (∀ files : List (List String),
      create_filelist files = create_filelist_spec files []) ∧
    create_filelist [["a", "b", "f1"], ["a", "b", "f2"], ["a", "c", "f3"]] =
      [.dir 0 "a", .dir 1 "b", .file 2 "f1", .file 2 "f2", .dir 1 "c",
       .file 2 "f3"] := by
  have hgen : ∀ files : List (List String),
      create_filelist files = create_filelist_spec files [] := by
    intro files
    have h := create_filelist_rows_eq files [] 0 []
    simpa [create_filelist] using h
  refine ⟨hgen, ?_⟩
  rw [hgen]
  decide

end Tremc
